import Mathlib

/-!
# AVL tree (`avl.c`): shallow embedding and verification

The C program stores `int` values in heap nodes linked by owning pointers.
Each node is reachable from exactly one place, so a pointer to a subtree is
modelled by the subtree itself and `NULL` by a constructor of its own.

* Values are only ever compared (`<`, `>`, `==`), never computed with, so they
  are embedded as `Int`; every C `int` is such a value.
* The cached `height` field is an `int` that only receives `child + 1`; on a
  tree that fits in memory it stays far below `2^31`, so it is an `Int` too.
* Dereferencing `NULL` is undefined in C.  Every function that dereferences its
  argument returns `Option` and yields `none` exactly where the C code would
  dereference a null pointer.
* In-place updates (`n->left = ...`, `n->val = ...`) become the construction of
  the updated node.
-/

namespace Avl

/-- The `struct avl_node`: fields `val`, `left`, `right`, `height` in the order
of the source; `NULL` is the null pointer. -/
inductive avl_node where
  | NULL : avl_node
  | node (val : Int) (left : avl_node) (right : avl_node) (height : Int) : avl_node
  deriving DecidableEq

open avl_node

/-- The `struct avl`: a single `root` pointer. -/
structure avl where
  root : avl_node
  deriving DecidableEq

/-- The pointer test `n == NULL`. -/
def is_null : avl_node → Bool
  | NULL => true
  | node _ _ _ _ => false

/-- The function `avl_create`: a tree whose root is `NULL`. -/
def avl_create : avl := ⟨NULL⟩

/-- The function `avl_isempty`: `t->root == NULL` as a C truth value. -/
def avl_isempty (t : avl) : Int :=
  if is_null t.root then 1 else 0

/-- The function `_avl_node_create`: a fresh leaf of cached height 0. -/
def _avl_node_create (val : Int) : avl_node :=
  node val NULL NULL 0

/-- The function `_avl_get_height`: the cached height, or -1 for `NULL`. -/
def _avl_get_height : avl_node → Int
  | NULL => -1
  | node _ _ _ h => h

/-- The function `_avl_update_height`: overwrite the cached height of `n` with
one more than the larger cached child height. -/
def _avl_update_height : avl_node → Option avl_node
  | NULL => none
  | node v l r _ =>
    let lh := _avl_get_height l
    let rh := _avl_get_height r
    if lh > rh then some (node v l r (lh + 1)) else some (node v l r (rh + 1))

/-- The function `_avl_rotate_left`: the right child `center` becomes the
subtree root, `n` takes `center->left` as its right child and becomes
`center->left`; the height of `n` is updated first, then that of `center`. -/
def _avl_rotate_left : avl_node → Option avl_node
  | node v l (node cv cl cr ch) h => do
    let n ← _avl_update_height (node v l cl h)
    _avl_update_height (node cv n cr ch)
  | _ => none

/-- The function `_avl_rotate_right`: mirror image of `_avl_rotate_left`. -/
def _avl_rotate_right : avl_node → Option avl_node
  | node v (node cv cl cr ch) r h => do
    let n ← _avl_update_height (node v cr r h)
    _avl_update_height (node cv cl n ch)
  | _ => none

/-- The function `_avl_balance_factor`: cached height of the right child minus
cached height of the left child. -/
def _avl_balance_factor : avl_node → Option Int
  | NULL => none
  | node _ l r _ => some (_avl_get_height r - _avl_get_height l)

/-- The function `_avl_balance`. -/
def _avl_balance : avl_node → Option avl_node
  | NULL => none
  | node v l r h => do
    let bf ← _avl_balance_factor (node v l r h)
    if bf < -1 then
      let lbf ← _avl_balance_factor l
      if lbf > 0 then
        let l' ← _avl_rotate_left l
        _avl_rotate_right (node v l' r h)
      else
        _avl_rotate_right (node v l r h)
    else if bf > 1 then
      let rbf ← _avl_balance_factor r
      if rbf < 0 then
        let r' ← _avl_rotate_right r
        _avl_rotate_left (node v l r' h)
      else
        _avl_rotate_left (node v l r h)
    else
      _avl_update_height (node v l r h)

/-- The function `_avl_subtree_insert`. -/
def _avl_subtree_insert (val : Int) : avl_node → Option avl_node
  | NULL => some (_avl_node_create val)
  | node nv l r h =>
    if val < nv then do
      let l' ← _avl_subtree_insert val l
      _avl_balance (node nv l' r h)
    else do
      let r' ← _avl_subtree_insert val r
      _avl_balance (node nv l r' h)

/-- The function `avl_insert`. -/
def avl_insert (val : Int) (t : avl) : Option avl := do
  let r ← _avl_subtree_insert val t.root
  some ⟨r⟩

/-- The function `_avl_subtree_min_val`: walk left while a left child exists. -/
def _avl_subtree_min_val : avl_node → Option Int
  | NULL => none
  | node v l _ _ => if is_null l then some v else _avl_subtree_min_val l

/-- The function `_avl_subtree_remove`. -/
def _avl_subtree_remove (val : Int) : avl_node → Option avl_node
  | NULL => some NULL
  | node nv l r h =>
    if val < nv then do
      let l' ← _avl_subtree_remove val l
      _avl_balance (node nv l' r h)
    else if val > nv then do
      let r' ← _avl_subtree_remove val r
      _avl_balance (node nv l r' h)
    else if !is_null l && !is_null r then do
      let m ← _avl_subtree_min_val r
      let r' ← _avl_subtree_remove m r
      _avl_balance (node m l r' h)
    else if !is_null l then some l
    else if !is_null r then some r
    else some NULL

/-- The function `avl_remove`. -/
def avl_remove (val : Int) (t : avl) : Option avl := do
  let r ← _avl_subtree_remove val t.root
  some ⟨r⟩

/-- The search loop of `avl_contains`, started at `cur`. -/
def contains_from (val : Int) : avl_node → Int
  | NULL => 0
  | node nv l r _ =>
    if val = nv then 1
    else if val < nv then contains_from val l
    else contains_from val r

/-- The function `avl_contains`. -/
def avl_contains (val : Int) (t : avl) : Int :=
  contains_from val t.root

/-- The function `avl_free`: the loop
`while (!avl_isempty(t)) avl_remove(t->root->val, t)`, run with an iteration
budget `fuel`.  The result is the number of iterations performed and the final
tree; `none` when the budget is used up before the loop stops or a null
pointer is dereferenced. -/
def avl_free : Nat → avl → Option (Nat × avl)
  | 0, t => if avl_isempty t = 0 then none else some (0, t)
  | fuel + 1, t =>
    if avl_isempty t = 0 then
      match t.root with
      | NULL => none
      | node v _ _ _ => do
        let t' ← avl_remove v t
        let res ← avl_free fuel t'
        some (res.1 + 1, res.2)
    else some (0, t)

/-! ## Specification vocabulary -/

/-- True height of a subtree: -1 for an absent subtree, 0 for a leaf. -/
def height : avl_node → Int
  | NULL => -1
  | node _ l r _ => 1 + max (height l) (height r)

/-- Number of nodes. -/
def size : avl_node → Nat
  | NULL => 0
  | node _ l r _ => size l + 1 + size r

/-- In-order sequence of the stored values. -/
def inorder : avl_node → List Int
  | NULL => []
  | node v l r _ => inorder l ++ v :: inorder r

/-- Height-cache correctness at every node: the cached field is one more than
the larger true child height. -/
def HeightOK : avl_node → Prop
  | NULL => True
  | node _ l r h => HeightOK l ∧ HeightOK r ∧ h = 1 + max (height l) (height r)

/-- AVL balance at every node, on true heights. -/
def Balanced : avl_node → Prop
  | NULL => True
  | node _ l r _ => Balanced l ∧ Balanced r ∧ (height r - height l).natAbs ≤ 1

/-- Strict-left search order at every node: left values are smaller, right
values are greater or equal. -/
def BSTStrict : avl_node → Prop
  | NULL => True
  | node v l r _ =>
    BSTStrict l ∧ BSTStrict r ∧ (∀ x ∈ inorder l, x < v) ∧ (∀ x ∈ inorder r, v ≤ x)

/-- Weak search order at every node: left values are smaller or equal, right
values are greater or equal. -/
def BSTWeak : avl_node → Prop
  | NULL => True
  | node v l r _ =>
    BSTWeak l ∧ BSTWeak r ∧ (∀ x ∈ inorder l, x ≤ v) ∧ (∀ x ∈ inorder r, v ≤ x)

instance decHeightOK : (n : avl_node) → Decidable (HeightOK n)
  | NULL => isTrue trivial
  | node _ l r h =>
    have := decHeightOK l
    have := decHeightOK r
    inferInstanceAs (Decidable (HeightOK l ∧ HeightOK r ∧ h = 1 + max (height l) (height r)))

instance decBalanced : (n : avl_node) → Decidable (Balanced n)
  | NULL => isTrue trivial
  | node _ l r _ =>
    have := decBalanced l
    have := decBalanced r
    inferInstanceAs (Decidable (Balanced l ∧ Balanced r ∧ (height r - height l).natAbs ≤ 1))

instance decBSTStrict : (n : avl_node) → Decidable (BSTStrict n)
  | NULL => isTrue trivial
  | node v l r _ =>
    have := decBSTStrict l
    have := decBSTStrict r
    inferInstanceAs (Decidable (BSTStrict l ∧ BSTStrict r ∧
      (∀ x ∈ inorder l, x < v) ∧ (∀ x ∈ inorder r, v ≤ x)))

instance decBSTWeak : (n : avl_node) → Decidable (BSTWeak n)
  | NULL => isTrue trivial
  | node v l r _ =>
    have := decBSTWeak l
    have := decBSTWeak r
    inferInstanceAs (Decidable (BSTWeak l ∧ BSTWeak r ∧
      (∀ x ∈ inorder l, x ≤ v) ∧ (∀ x ∈ inorder r, v ≤ x)))

/-- A call of one of the two public mutators. -/
inductive avl_op where
  | insert (val : Int) : avl_op
  | remove (val : Int) : avl_op
  deriving DecidableEq

/-- Perform one public mutator call. -/
def apply_op : avl_op → avl → Option avl
  | avl_op.insert v, t => avl_insert v t
  | avl_op.remove v, t => avl_remove v t

/-- Perform a finite sequence of public mutator calls, first call first. -/
def apply_ops : List avl_op → avl → Option avl
  | [], t => some t
  | op :: ops, t => do
    let t' ← apply_op op t
    apply_ops ops t'

/-- A tree is reachable when some finite sequence of `avl_insert` and
`avl_remove` calls produces it from `avl_create`. -/
def Reachable (t : avl) : Prop :=
  ∃ ops : List avl_op, apply_ops ops avl_create = some t

/-! ## Results of the operations, the interface invariant, example trees -/

/-- What `_avl_balance` returns on a node whose children are valid AVL
subtrees: the shape invariants, the in-order sequence and the height. -/
structure BalanceResult (v : Int) (l r t : avl_node) : Prop where
  heightOK : HeightOK t
  balanced : Balanced t
  inorder_eq : inorder t = inorder l ++ v :: inorder r
  size_eq : size t = size l + 1 + size r
  height_le : height t ≤ 1 + max (height l) (height r)
  height_ge : max (height l) (height r) ≤ height t
  height_noop : (height r - height l).natAbs ≤ 1 → height t = 1 + max (height l) (height r)

/-- What `_avl_subtree_insert x t` returns on a valid AVL subtree `t`. -/
structure InsertResult (x : Int) (t t' : avl_node) : Prop where
  heightOK : HeightOK t'
  balanced : Balanced t'
  height_ge : height t ≤ height t'
  height_le : height t' ≤ height t + 1
  split : ∃ l1 l2, inorder t = l1 ++ l2 ∧ inorder t' = l1 ++ x :: l2 ∧
    (List.Sorted (· ≤ ·) (inorder t) → (∀ y ∈ l1, y ≤ x) ∧ (∀ y ∈ l2, x < y))

/-- What `_avl_subtree_remove x t` returns on a valid, ordered AVL subtree. -/
structure RemoveResult (x : Int) (t t' : avl_node) : Prop where
  heightOK : HeightOK t'
  balanced : Balanced t'
  height_le : height t' ≤ height t
  height_ge : height t - 1 ≤ height t'
  inorder_eq : inorder t' = (inorder t).erase x

/-- The invariant of the public interface: correct cached heights, AVL balance
and a non-decreasing in-order sequence. -/
def Inv (t : avl) : Prop :=
  HeightOK t.root ∧ Balanced t.root ∧ List.Sorted (· ≤ ·) (inorder t.root)

/-- Height-cache correctness as `_avl_update_height` would recompute it: the
cached field is one more than the larger cached child height, -1 standing for
an absent child. -/
def CacheOK : avl_node → Prop
  | NULL => True
  | node _ l r h =>
    CacheOK l ∧ CacheOK r ∧ h = 1 + max (_avl_get_height l) (_avl_get_height r)

/-- Three insertions of the same value. -/
def ops_dup : List avl_op :=
  [avl_op.insert 1, avl_op.insert 1, avl_op.insert 1]

/-- The tree built by `ops_dup`. -/
def tree_dup : avl :=
  ⟨node 1 (node 1 NULL NULL 0) (node 1 NULL NULL 0) 1⟩

/-- The insertions 5, 3, 8, 1, 4, 7, 9. -/
def ops_seven : List avl_op :=
  [avl_op.insert 5, avl_op.insert 3, avl_op.insert 8, avl_op.insert 1, avl_op.insert 4,
    avl_op.insert 7, avl_op.insert 9]

/-- The tree built by `ops_seven`. -/
def tree_seven : avl :=
  ⟨node 5 (node 3 (node 1 NULL NULL 0) (node 4 NULL NULL 0) 1)
    (node 8 (node 7 NULL NULL 0) (node 9 NULL NULL 0) 1) 2⟩

/-- The insertions of the test driver: 0, 1, ..., 15 in ascending order. -/
def ops_sixteen : List avl_op :=
  (List.range 16).map (fun i => avl_op.insert (i : Int))

/-- The tree built by `ops_sixteen`. -/
def tree_sixteen : avl :=
  ⟨node 7
    (node 3 (node 1 (node 0 NULL NULL 0) (node 2 NULL NULL 0) 1)
      (node 5 (node 4 NULL NULL 0) (node 6 NULL NULL 0) 1) 2)
    (node 11 (node 9 (node 8 NULL NULL 0) (node 10 NULL NULL 0) 1)
      (node 13 (node 12 NULL NULL 0) (node 14 NULL (node 15 NULL NULL 0) 1) 2) 3) 4⟩

/-- The tree `tree_seven` after `avl_remove(5, t)`. -/
def tree_seven_removed : avl :=
  ⟨node 7 (node 3 (node 1 NULL NULL 0) (node 4 NULL NULL 0) 1)
    (node 8 NULL (node 9 NULL NULL 0) 1) 2⟩

/-- Least number of nodes of a balanced tree of height `h`. -/
def min_nodes : Nat → Nat
  | 0 => 1
  | 1 => 2
  | h + 2 => min_nodes (h + 1) + min_nodes h + 1

/-- Number of iterations of the `while` loop of `avl_contains` started at
`cur`: one per node visited. -/
def contains_iters (val : Int) : avl_node → Nat
  | NULL => 0
  | node nv l r _ =>
    if val = nv then 1
    else if val < nv then contains_iters val l + 1
    else contains_iters val r + 1

/-- Recursion depth of `_avl_subtree_insert`: the number of nested recursive
calls below the outermost call. -/
def insert_depth (val : Int) : avl_node → Nat
  | NULL => 0
  | node nv l r _ =>
    if val < nv then insert_depth val l + 1 else insert_depth val r + 1

/-- Recursion depth of `_avl_subtree_remove`: the number of nested recursive
calls below the outermost call. -/
def remove_depth (val : Int) : avl_node → Nat
  | NULL => 0
  | node nv l r _ =>
    if val < nv then remove_depth val l + 1
    else if val > nv then remove_depth val r + 1
    else if !is_null l && !is_null r then
      match _avl_subtree_min_val r with
      | some m => remove_depth m r + 1
      | none => 0
    else 0

/-- The value stored in the leftmost node of a subtree (the node reached by
following `left` links from the root until there is none); `none` for an
absent subtree. -/
def leftmost : avl_node → Option Int
  | NULL => none
  | node v NULL _ _ => some v
  | node _ (node lv ll lr lh) _ _ => leftmost (node lv ll lr lh)

/-- What `_avl_subtree_remove` returns on a valid AVL subtree, whatever the
order of its values: the shape invariants and the height. -/
structure RemoveShape (t t' : avl_node) : Prop where
  heightOK : HeightOK t'
  balanced : Balanced t'
  height_le : height t' ≤ height t
  height_ge : height t - 1 ≤ height t'

/-! ## Heights and rotations -/

theorem height_ge (t : avl_node) : -1 ≤ height t := by
  cases t with
  | NULL => simp [height]
  | node v l r h => simp only [height]; have := height_ge l; omega

theorem get_height_eq {t : avl_node} (ht : HeightOK t) : _avl_get_height t = height t := by
  cases t with
  | NULL => rfl
  | node v l r h => simp only [_avl_get_height, height]; exact ht.2.2

theorem get_height_node (v h : Int) (l r : avl_node) :
    _avl_get_height (node v l r h) = h := rfl

theorem update_height_eq (v h : Int) {l r : avl_node} (hl : HeightOK l) (hr : HeightOK r) :
    _avl_update_height (node v l r h) = some (node v l r (1 + max (height l) (height r))) := by
  simp only [_avl_update_height, get_height_eq hl, get_height_eq hr]
  split_ifs with hc
  · congr 2; omega
  · congr 2; omega

theorem rotate_left_eq (v h cv ch : Int) {l cl cr : avl_node}
    (hl : HeightOK l) (hcl : HeightOK cl) (hcr : HeightOK cr) :
    _avl_rotate_left (node v l (node cv cl cr ch) h) =
      some (node cv (node v l cl (1 + max (height l) (height cl))) cr
        (1 + max (1 + max (height l) (height cl)) (height cr))) := by
  have hn : HeightOK (node v l cl (1 + max (height l) (height cl))) := ⟨hl, hcl, rfl⟩
  simp only [_avl_rotate_left, update_height_eq v h hl hcl, Option.bind_eq_bind,
    Option.some_bind, update_height_eq cv ch hn hcr, height]

theorem rotate_right_eq (v h cv ch : Int) {cl cr r : avl_node}
    (hcl : HeightOK cl) (hcr : HeightOK cr) (hr : HeightOK r) :
    _avl_rotate_right (node v (node cv cl cr ch) r h) =
      some (node cv cl (node v cr r (1 + max (height cr) (height r)))
        (1 + max (height cl) (1 + max (height cr) (height r)))) := by
  have hn : HeightOK (node v cr r (1 + max (height cr) (height r))) := ⟨hcr, hr, rfl⟩
  simp only [_avl_rotate_right, update_height_eq v h hcr hr, Option.bind_eq_bind,
    Option.some_bind, update_height_eq cv ch hcl hn, height]

theorem balance_noop (v h : Int) {l r : avl_node} (hl : HeightOK l) (hr : HeightOK r)
    (hd : (height r - height l).natAbs ≤ 1) :
    _avl_balance (node v l r h) = some (node v l r (1 + max (height l) (height r))) := by
  have h1 : ¬ (height r - height l < -1) := by omega
  have h2 : ¬ (height r - height l > 1) := by omega
  simp only [_avl_balance, _avl_balance_factor, get_height_eq hl, get_height_eq hr,
    Option.bind_eq_bind, Option.some_bind, if_neg h1, if_neg h2, update_height_eq v h hl hr]

theorem balance_spec (v h : Int) {l r : avl_node}
    (hl : HeightOK l) (hr : HeightOK r) (bl : Balanced l) (br : Balanced r)
    (hd : (height r - height l).natAbs ≤ 2) :
    ∃ t, _avl_balance (node v l r h) = some t ∧ BalanceResult v l r t := by
  by_cases hlt : height r - height l < -1
  · -- left-heavy: the left child is present
    cases l with
    | NULL => simp only [height] at hlt; have := height_ge r; omega
    | node lv ll lr lh =>
      obtain ⟨hll, hlr, hlh⟩ := hl
      obtain ⟨bll, blr, bld⟩ := bl
      simp only [height] at hlt hd bld
      by_cases hdbl : height lr - height ll > 0
      · -- double rotation: the left child's right child is present
        cases lr with
        | NULL => simp only [height] at hdbl; have := height_ge ll; omega
        | node mv ml mr mh =>
          obtain ⟨hml, hmr, hmh⟩ := hlr
          obtain ⟨bml, bmr, bmd⟩ := blr
          simp only [height] at hlt hd bld hdbl bmd
          refine ⟨?w1, ?eq1, ?res1⟩
          case eq1 =>
            simp only [_avl_balance, _avl_balance_factor, get_height_node,
              get_height_eq hr, get_height_eq hll, Option.bind_eq_bind, Option.some_bind]
            rw [if_pos (by simp only [hlh, height]; omega),
              if_pos (by simp only [hmh]; omega)]
            rw [rotate_left_eq lv lh mv mh hll hml hmr]
            simp only [Option.some_bind]
            exact rotate_right_eq v h mv _ (show HeightOK (node lv ll ml _) from ⟨hll, hml, rfl⟩) hmr hr
          case res1 =>
            constructor
            · exact ⟨⟨hll, hml, rfl⟩, ⟨hmr, hr, rfl⟩, by simp only [height]⟩
            · refine ⟨⟨bll, bml, ?_⟩, ⟨bmr, br, ?_⟩, ?_⟩ <;> (try simp only [height]) <;> omega
            · simp only [inorder, List.append_assoc, List.cons_append]
            · simp only [size]; omega
            · simp only [height]; omega
            · simp only [height]; omega
            · intro hc; simp only [height] at hc ⊢; omega
      · refine ⟨?w2, ?eq2, ?res2⟩
        case eq2 =>
          simp only [_avl_balance, _avl_balance_factor, get_height_node,
            get_height_eq hr, get_height_eq hll, get_height_eq hlr, Option.bind_eq_bind,
            Option.some_bind]
          rw [if_pos (by simp only [hlh]; omega), if_neg (by omega)]
          exact rotate_right_eq v h lv lh hll hlr hr
        case res2 =>
          constructor
          · exact ⟨hll, ⟨hlr, hr, rfl⟩, by simp only [height]⟩
          · refine ⟨bll, ⟨blr, br, ?_⟩, ?_⟩ <;> (try simp only [height]) <;> omega
          · simp only [inorder, List.append_assoc, List.cons_append]
          · simp only [size]; omega
          · simp only [height]; omega
          · simp only [height]; omega
          · intro hc; simp only [height] at hc ⊢; omega
  · by_cases hgt : height r - height l > 1
    · -- right-heavy: the right child is present
      cases r with
      | NULL => simp only [height] at hgt; have := height_ge l; omega
      | node rv rl rr rh =>
        obtain ⟨hrl, hrr, hrh⟩ := hr
        obtain ⟨brl, brr, brd⟩ := br
        simp only [height] at hlt hgt hd brd
        by_cases hdbl : height rr - height rl < 0
        · -- double rotation: the right child's left child is present
          cases rl with
          | NULL => simp only [height] at hdbl; have := height_ge rr; omega
          | node mv ml mr mh =>
            obtain ⟨hml, hmr, hmh⟩ := hrl
            obtain ⟨bml, bmr, bmd⟩ := brl
            simp only [height] at hlt hgt hd brd hdbl bmd
            refine ⟨?w3, ?eq3, ?res3⟩
            case eq3 =>
              simp only [_avl_balance, _avl_balance_factor, get_height_node,
                get_height_eq hl, get_height_eq hrr, Option.bind_eq_bind, Option.some_bind]
              rw [if_neg (by simp only [hrh, height]; omega),
                if_pos (by simp only [hrh, height]; omega),
                if_pos (by simp only [hmh]; omega)]
              rw [rotate_right_eq rv rh mv mh hml hmr hrr]
              simp only [Option.some_bind]
              exact rotate_left_eq v h mv _ hl hml (show HeightOK (node rv mr rr _) from ⟨hmr, hrr, rfl⟩)
            case res3 =>
              constructor
              · exact ⟨⟨hl, hml, rfl⟩, ⟨hmr, hrr, rfl⟩, by simp only [height]⟩
              · refine ⟨⟨bl, bml, ?_⟩, ⟨bmr, brr, ?_⟩, ?_⟩ <;> (try simp only [height]) <;> omega
              · simp only [inorder, List.append_assoc, List.cons_append]
              · simp only [size]; omega
              · simp only [height]; omega
              · simp only [height]; omega
              · intro hc; simp only [height] at hc ⊢; omega
        · refine ⟨?w4, ?eq4, ?res4⟩
          case eq4 =>
            simp only [_avl_balance, _avl_balance_factor, get_height_node,
              get_height_eq hl, get_height_eq hrl, get_height_eq hrr, Option.bind_eq_bind,
              Option.some_bind]
            rw [if_neg (by simp only [hrh]; omega), if_pos (by simp only [hrh]; omega),
              if_neg (by omega)]
            exact rotate_left_eq v h rv rh hl hrl hrr
          case res4 =>
            constructor
            · exact ⟨⟨hl, hrl, rfl⟩, hrr, by simp only [height]⟩
            · refine ⟨⟨bl, brl, ?_⟩, brr, ?_⟩ <;> (try simp only [height]) <;> omega
            · simp only [inorder, List.append_assoc, List.cons_append]
            · simp only [size]; omega
            · simp only [height]; omega
            · simp only [height]; omega
            · intro hc; simp only [height] at hc ⊢; omega
    · refine ⟨_, balance_noop v h hl hr (by omega), ?_⟩
      constructor
      · exact ⟨hl, hr, rfl⟩
      · exact ⟨bl, br, by omega⟩
      · rfl
      · rfl
      · simp only [height]; omega
      · simp only [height]; omega
      · intro _; simp only [height]

/-! ## Facts on lists used for the in-order sequence -/

theorem erase_append_of_not_mem {x : Int} (l1 : List Int) {l2 : List Int} (h : x ∉ l2) :
    (l1 ++ l2).erase x = l1.erase x ++ l2 := by
  by_cases h1 : x ∈ l1
  · exact List.erase_append_left l2 h1
  · rw [List.erase_append_right l2 h1, List.erase_of_not_mem h, List.erase_of_not_mem h1]

theorem append_cons_of_all_eq {x : Int} (l1 l2 : List Int) (h : ∀ y ∈ l1, y = x) :
    l1 ++ x :: l2 = x :: (l1 ++ l2) := by
  induction l1 with
  | nil => rfl
  | cons a l ih =>
    have ha : a = x := h a (List.mem_cons_self a l)
    have ih2 := ih (fun y hy => h y (List.mem_cons_of_mem a hy))
    rw [List.cons_append, ih2, ha, List.cons_append]

theorem sorted_erase_mid {x : Int} (l1 l2 : List Int)
    (hs : List.Sorted (· ≤ ·) (l1 ++ x :: l2)) :
    (l1 ++ x :: l2).erase x = l1 ++ l2 := by
  induction l1 with
  | nil => simp
  | cons a l ih =>
    have hs2 : List.Sorted (· ≤ ·) (l ++ x :: l2) := by
      rw [List.cons_append] at hs; exact hs.of_cons
    by_cases ha : a = x
    · subst ha
      have hall : ∀ y ∈ l, y = a := by
        intro y hy
        rw [List.cons_append] at hs
        have h1 : a ≤ y := List.rel_of_sorted_cons hs y (List.mem_append_left _ hy)
        have h2 : y ≤ a := by
          have := List.pairwise_append.mp hs2
          exact this.2.2 y hy a (List.mem_cons_self a l2)
        omega
      rw [List.cons_append, List.erase_cons_head, append_cons_of_all_eq l l2 hall,
        List.cons_append]
    · rw [List.cons_append, List.erase_cons_tail (by simpa using ha), ih hs2, List.cons_append]

theorem sorted_insert_mid {x : Int} (l1 l2 : List Int)
    (hs : List.Sorted (· ≤ ·) (l1 ++ l2)) (h1 : ∀ y ∈ l1, y ≤ x) (h2 : ∀ y ∈ l2, x < y) :
    List.Sorted (· ≤ ·) (l1 ++ x :: l2) := by
  have hp := List.pairwise_append.mp hs
  refine List.pairwise_append.mpr ⟨hp.1, ?_, ?_⟩
  · exact List.pairwise_cons.mpr ⟨fun y hy => le_of_lt (h2 y hy), hp.2.1⟩
  · intro a ha b hb
    rcases List.mem_cons.mp hb with hb | hb
    · rw [hb]; exact h1 a ha
    · exact hp.2.2 a ha b hb

/-! ## Insertion -/

theorem size_eq_length (t : avl_node) : size t = (inorder t).length := by
  induction t with
  | NULL => rfl
  | node v l r h ihl ihr => simp only [size, inorder, List.length_append, List.length_cons]; omega

theorem insert_spec (x : Int) (t : avl_node) (ht : HeightOK t) (bt : Balanced t) :
    ∃ t', _avl_subtree_insert x t = some t' ∧ InsertResult x t t' := by
  induction t with
  | NULL =>
    refine ⟨_avl_node_create x, rfl, ⟨⟨trivial, trivial, rfl⟩, ⟨trivial, trivial, by decide⟩,
      by simp [height, _avl_node_create], by simp [height, _avl_node_create], ?_⟩⟩
    exact ⟨[], [], rfl, rfl, fun _ => ⟨by simp, by simp⟩⟩
  | node nv l r h ihl ihr =>
    obtain ⟨hl, hr, hh⟩ := ht
    obtain ⟨bl, br, bd⟩ := bt
    by_cases hlt : x < nv
    · obtain ⟨l', el, rl⟩ := ihl hl bl
      have hgl := rl.height_ge
      have hll := rl.height_le
      obtain ⟨t', et, rt⟩ := balance_spec nv h rl.heightOK hr rl.balanced br (by omega)
      refine ⟨t', ?_, ?_⟩
      · simp only [_avl_subtree_insert, if_pos hlt, el, Option.bind_eq_bind, Option.some_bind, et]
      · have h1 := rt.height_le
        have h2 := rt.height_ge
        have h3 := rt.height_noop
        refine ⟨rt.heightOK, rt.balanced, ?_, ?_, ?_⟩
        · simp only [height]
          by_cases hc : (height r - height l').natAbs ≤ 1
          · have := h3 hc; omega
          · omega
        · simp only [height]; omega
        · obtain ⟨l1, l2, e1, e2, e3⟩ := rl.split
          refine ⟨l1, l2 ++ nv :: inorder r, ?_, ?_, ?_⟩
          · simp only [inorder, e1, List.append_assoc]
          · rw [rt.inorder_eq, e2]; simp only [List.append_assoc, List.cons_append]
          · intro hs
            simp only [inorder] at hs
            have hp := List.pairwise_append.mp hs
            obtain ⟨b1, b2⟩ := e3 hp.1
            refine ⟨b1, ?_⟩
            intro y hy
            rcases List.mem_append.mp hy with hy | hy
            · exact b2 y hy
            · rcases List.mem_cons.mp hy with hy | hy
              · rw [hy]; exact hlt
              · have := List.rel_of_sorted_cons hp.2.1 y hy
                omega
    · obtain ⟨r', er, rr⟩ := ihr hr br
      have hgr := rr.height_ge
      have hlr := rr.height_le
      obtain ⟨t', et, rt⟩ := balance_spec nv h hl rr.heightOK bl rr.balanced (by omega)
      refine ⟨t', ?_, ?_⟩
      · simp only [_avl_subtree_insert, if_neg hlt, er, Option.bind_eq_bind, Option.some_bind, et]
      · have h1 := rt.height_le
        have h2 := rt.height_ge
        have h3 := rt.height_noop
        refine ⟨rt.heightOK, rt.balanced, ?_, ?_, ?_⟩
        · simp only [height]
          by_cases hc : (height r' - height l).natAbs ≤ 1
          · have := h3 hc; omega
          · omega
        · simp only [height]; omega
        · obtain ⟨l1, l2, e1, e2, e3⟩ := rr.split
          refine ⟨inorder l ++ nv :: l1, l2, ?_, ?_, ?_⟩
          · simp only [inorder, e1, List.append_assoc, List.cons_append]
          · rw [rt.inorder_eq, e2]; simp only [List.append_assoc, List.cons_append]
          · intro hs
            simp only [inorder] at hs
            have hp := List.pairwise_append.mp hs
            obtain ⟨b1, b2⟩ := e3 hp.2.1.of_cons
            refine ⟨?_, b2⟩
            intro y hy
            rcases List.mem_append.mp hy with hy | hy
            · have := hp.2.2 y hy nv (List.mem_cons_self nv _)
              omega
            · rcases List.mem_cons.mp hy with hy | hy
              · rw [hy]; omega
              · exact b1 y hy

/-! ## Removal -/

theorem is_null_NULL : is_null NULL = true := rfl

theorem height_nonneg_of_not_null {t : avl_node} (h : is_null t = false) : 0 ≤ height t := by
  cases t with
  | NULL => simp [is_null] at h
  | node v l r c => simp only [height]; have := height_ge l; omega

theorem min_val_head (t : avl_node) (h : is_null t = false) :
    ∃ m rest, _avl_subtree_min_val t = some m ∧ inorder t = m :: rest := by
  induction t with
  | NULL => simp [is_null] at h
  | node v l r c ihl _ =>
    by_cases hl : is_null l = true
    · refine ⟨v, inorder r, by simp only [_avl_subtree_min_val, if_pos hl], ?_⟩
      cases l with
      | NULL => rfl
      | node _ _ _ _ => simp [is_null] at hl
    · obtain ⟨m, rest, e1, e2⟩ := ihl (by simpa using hl)
      exact ⟨m, rest ++ v :: inorder r, by simp only [_avl_subtree_min_val, if_neg hl, e1],
        by simp only [inorder, e2, List.cons_append]⟩

theorem inorder_of_null {t : avl_node} (h : is_null t = true) : t = NULL := by
  cases t with
  | NULL => rfl
  | node _ _ _ _ => simp [is_null] at h

theorem remove_spec (x : Int) (t : avl_node) (ht : HeightOK t) (bt : Balanced t)
    (st : List.Sorted (· ≤ ·) (inorder t)) :
    ∃ t', _avl_subtree_remove x t = some t' ∧ RemoveResult x t t' := by
  induction t generalizing x with
  | NULL =>
    exact ⟨NULL, rfl, ⟨trivial, trivial, le_refl _, by simp [height], rfl⟩⟩
  | node nv l r h ihl ihr =>
    obtain ⟨hl, hr, hh⟩ := ht
    obtain ⟨bl, br, bd⟩ := bt
    simp only [inorder] at st
    have hp := List.pairwise_append.mp st
    have sl : List.Sorted (· ≤ ·) (inorder l) := hp.1
    have sr : List.Sorted (· ≤ ·) (inorder r) := hp.2.1.of_cons
    have lle : ∀ y ∈ inorder l, y ≤ nv := fun y hy => hp.2.2 y hy nv (List.mem_cons_self nv _)
    have rge : ∀ y ∈ inorder r, nv ≤ y := fun y hy => List.rel_of_sorted_cons hp.2.1 y hy
    by_cases hlt : x < nv
    · obtain ⟨l', el, rl⟩ := ihl x hl bl sl
      have hgl := rl.height_ge
      have hll := rl.height_le
      obtain ⟨t', et, rt⟩ := balance_spec nv h rl.heightOK hr rl.balanced br (by omega)
      refine ⟨t', ?_, ?_⟩
      · simp only [_avl_subtree_remove, if_pos hlt, el, Option.bind_eq_bind, Option.some_bind, et]
      · have h1 := rt.height_le
        have h2 := rt.height_ge
        have h3 := rt.height_noop
        refine ⟨rt.heightOK, rt.balanced, ?_, ?_, ?_⟩
        · simp only [height]; omega
        · simp only [height]
          by_cases hc : (height r - height l').natAbs ≤ 1
          · have := h3 hc; omega
          · omega
        · have hx : x ∉ nv :: inorder r := by
            intro hm
            rcases List.mem_cons.mp hm with hm | hm
            · omega
            · have := rge x hm; omega
          rw [rt.inorder_eq, rl.inorder_eq]
          simp only [inorder]
          exact (erase_append_of_not_mem (inorder l) hx).symm
    · by_cases hgt : x > nv
      · obtain ⟨r', er, rr⟩ := ihr x hr br sr
        have hgr := rr.height_ge
        have hlr := rr.height_le
        obtain ⟨t', et, rt⟩ := balance_spec nv h hl rr.heightOK bl rr.balanced (by omega)
        refine ⟨t', ?_, ?_⟩
        · simp only [_avl_subtree_remove, if_neg hlt, if_pos hgt, er, Option.bind_eq_bind,
            Option.some_bind, et]
        · have h1 := rt.height_le
          have h2 := rt.height_ge
          have h3 := rt.height_noop
          refine ⟨rt.heightOK, rt.balanced, ?_, ?_, ?_⟩
          · simp only [height]; omega
          · simp only [height]
            by_cases hc : (height r' - height l).natAbs ≤ 1
            · have := h3 hc; omega
            · omega
          · have hx : x ∉ inorder l := by
              intro hm
              have := lle x hm; omega
            have hne : ¬ ((nv == x) = true) := by
              simp only [beq_iff_eq]; omega
            rw [rt.inorder_eq, rr.inorder_eq]
            simp only [inorder]
            rw [List.erase_append_right _ hx, List.erase_cons_tail hne]
      · have hxe : x = nv := by omega
        subst hxe
        by_cases hnl : is_null l = true
        · have el : l = NULL := inorder_of_null hnl
          subst el
          by_cases hnr : is_null r = true
          · have er : r = NULL := inorder_of_null hnr
            subst er
            refine ⟨NULL, ?_, ⟨trivial, trivial, ?_, ?_, ?_⟩⟩
            · simp [_avl_subtree_remove, is_null_NULL]
            · simp [height]
            · simp [height]
            · simp [inorder]
          · have hnr2 : is_null r = false := by simpa using hnr
            have hr0 := height_nonneg_of_not_null hnr2
            refine ⟨r, ?_, ⟨hr, br, ?_, ?_, ?_⟩⟩
            · simp [_avl_subtree_remove, is_null_NULL, hnr2]
            · simp only [height] at bd ⊢; omega
            · simp only [height] at bd ⊢; omega
            · simp [inorder]
        · have hnl2 : is_null l = false := by simpa using hnl
          have hl0 := height_nonneg_of_not_null hnl2
          by_cases hnr : is_null r = true
          · have er : r = NULL := inorder_of_null hnr
            subst er
            refine ⟨l, ?_, ⟨hl, bl, ?_, ?_, ?_⟩⟩
            · simp [_avl_subtree_remove, is_null_NULL, hnl2]
            · simp only [height] at bd ⊢; omega
            · simp only [height] at bd ⊢; omega
            · simp only [inorder]
              exact (sorted_erase_mid (inorder l) [] st).symm ▸ (List.append_nil _).symm
          · have hnr2 : is_null r = false := by simpa using hnr
            obtain ⟨m, rest, em, erest⟩ := min_val_head r hnr2
            obtain ⟨r', er, rr⟩ := ihr m hr br sr
            have hgr := rr.height_ge
            have hlr := rr.height_le
            obtain ⟨t', et, rt⟩ := balance_spec m h hl rr.heightOK bl rr.balanced (by omega)
            refine ⟨t', ?_, ?_⟩
            · simp [_avl_subtree_remove, hnl2, hnr2, em, er, et]
            · have h1 := rt.height_le
              have h2 := rt.height_ge
              have h3 := rt.height_noop
              refine ⟨rt.heightOK, rt.balanced, ?_, ?_, ?_⟩
              · simp only [height]; omega
              · simp only [height]
                by_cases hc : (height r' - height l).natAbs ≤ 1
                · have := h3 hc; omega
                · omega
              · rw [rt.inorder_eq, rr.inorder_eq, erest, List.erase_cons_head]
                simp only [inorder]
                rw [sorted_erase_mid (inorder l) (inorder r) st, erest]

theorem remove_absent (x : Int) (t : avl_node) (ht : HeightOK t) (bt : Balanced t)
    (hx : x ∉ inorder t) : _avl_subtree_remove x t = some t := by
  induction t with
  | NULL => rfl
  | node nv l r h ihl ihr =>
    obtain ⟨hl, hr, hh⟩ := ht
    obtain ⟨bl, br, bd⟩ := bt
    simp only [inorder, List.mem_append, List.mem_cons, not_or] at hx
    obtain ⟨hxl, hxv, hxr⟩ := hx
    subst hh
    by_cases hlt : x < nv
    · simp only [_avl_subtree_remove, if_pos hlt, ihl hl bl hxl, Option.bind_eq_bind,
        Option.some_bind, balance_noop nv _ hl hr bd]
    · have hgt : x > nv := by omega
      simp only [_avl_subtree_remove, if_neg hlt, if_pos hgt, ihr hr br hxr, Option.bind_eq_bind,
        Option.some_bind, balance_noop nv _ hl hr bd]

/-! ## Membership -/

theorem contains_from_spec (x : Int) (t : avl_node) (st : List.Sorted (· ≤ ·) (inorder t)) :
    contains_from x t = if x ∈ inorder t then 1 else 0 := by
  induction t with
  | NULL => simp [contains_from, inorder]
  | node nv l r h ihl ihr =>
    simp only [inorder] at st
    have hp := List.pairwise_append.mp st
    have lle : ∀ y ∈ inorder l, y ≤ nv := fun y hy => hp.2.2 y hy nv (List.mem_cons_self nv _)
    have rge : ∀ y ∈ inorder r, nv ≤ y := fun y hy => List.rel_of_sorted_cons hp.2.1 y hy
    by_cases he : x = nv
    · simp [contains_from, inorder, he]
    · by_cases hlt : x < nv
      · have hr : x ∉ inorder r := fun hm => by have := rge x hm; omega
        simp only [contains_from, if_neg he, if_pos hlt, ihl hp.1, inorder, List.mem_append,
          List.mem_cons, he, hr, or_false, false_or, if_false]
      · have hl : x ∉ inorder l := fun hm => by have := lle x hm; omega
        simp only [contains_from, if_neg he, if_neg hlt, ihr hp.2.1.of_cons, inorder,
          List.mem_append, List.mem_cons, he, hl, or_false, false_or, if_false]

/-! ## Search order -/

theorem bstWeak_iff_sorted (t : avl_node) : BSTWeak t ↔ List.Sorted (· ≤ ·) (inorder t) := by
  induction t with
  | NULL => simp [BSTWeak, inorder]
  | node v l r h ihl ihr =>
    simp only [BSTWeak, inorder, List.Sorted, List.pairwise_append, List.pairwise_cons,
      List.mem_cons, forall_eq_or_imp] at ihl ihr ⊢
    rw [ihl, ihr]
    constructor
    · rintro ⟨h1, h2, h3, h4⟩
      exact ⟨h1, ⟨h4, h2⟩, fun a ha => ⟨h3 a ha, fun b hb => le_trans (h3 a ha) (h4 b hb)⟩⟩
    · rintro ⟨h1, ⟨h4, h2⟩, h3⟩
      exact ⟨h1, h2, fun a ha => (h3 a ha).1, h4⟩

theorem bstStrict_of_nodup (t : avl_node) (hw : BSTWeak t) (hn : (inorder t).Nodup) :
    BSTStrict t := by
  induction t with
  | NULL => trivial
  | node v l r h ihl ihr =>
    obtain ⟨wl, wr, hl, hr⟩ := hw
    simp only [inorder] at hn
    have hn2 := List.nodup_append.mp hn
    have hv : v ∉ inorder l := fun hm => hn2.2.2 hm (List.mem_cons_self v _)
    refine ⟨ihl wl hn2.1, ihr wr (List.nodup_cons.mp hn2.2.1).2, ?_, hr⟩
    intro x hx
    have h1 := hl x hx
    have h2 : x ≠ v := fun e => hv (e ▸ hx)
    omega

/-! ## Reachable trees -/

theorem inv_create : Inv avl_create :=
  ⟨trivial, trivial, List.sorted_nil⟩

theorem insert_inv (v : Int) (t : avl) (ht : Inv t) :
    ∃ t', avl_insert v t = some t' ∧ Inv t' ∧
      ∃ l1 l2, inorder t.root = l1 ++ l2 ∧ inorder t'.root = l1 ++ v :: l2 := by
  obtain ⟨h1, h2, h3⟩ := ht
  obtain ⟨r', e, res⟩ := insert_spec v t.root h1 h2
  obtain ⟨l1, l2, e1, e2, e3⟩ := res.split
  refine ⟨⟨r'⟩, ?_, ⟨res.heightOK, res.balanced, ?_⟩, l1, l2, e1, e2⟩
  · simp only [avl_insert, e, Option.bind_eq_bind, Option.some_bind]
  · obtain ⟨b1, b2⟩ := e3 h3
    show List.Sorted (· ≤ ·) (inorder r')
    rw [e2]
    exact sorted_insert_mid l1 l2 (e1 ▸ h3) b1 b2

theorem remove_inv (v : Int) (t : avl) (ht : Inv t) :
    ∃ t', avl_remove v t = some t' ∧ Inv t' ∧
      inorder t'.root = (inorder t.root).erase v := by
  obtain ⟨h1, h2, h3⟩ := ht
  obtain ⟨r', e, res⟩ := remove_spec v t.root h1 h2 h3
  refine ⟨⟨r'⟩, ?_, ⟨res.heightOK, res.balanced, ?_⟩, res.inorder_eq⟩
  · simp only [avl_remove, e, Option.bind_eq_bind, Option.some_bind]
  · show List.Sorted (· ≤ ·) (inorder r')
    rw [res.inorder_eq]
    exact List.Pairwise.sublist (List.erase_sublist v _) h3

theorem apply_ops_inv (ops : List avl_op) (t : avl) (ht : Inv t) :
    ∃ t', apply_ops ops t = some t' ∧ Inv t' := by
  induction ops generalizing t with
  | nil => exact ⟨t, rfl, ht⟩
  | cons op ops ih =>
    have step : ∃ t1, apply_op op t = some t1 ∧ Inv t1 := by
      cases op with
      | insert v =>
        obtain ⟨t1, e, i1, _⟩ := insert_inv v t ht
        exact ⟨t1, e, i1⟩
      | remove v =>
        obtain ⟨t1, e, i1, _⟩ := remove_inv v t ht
        exact ⟨t1, e, i1⟩
    obtain ⟨t1, e1, i1⟩ := step
    obtain ⟨t2, e2, i2⟩ := ih t1 i1
    exact ⟨t2, by simp only [apply_ops, e1, Option.bind_eq_bind, Option.some_bind, e2], i2⟩

theorem reachable_inv {t : avl} (ht : Reachable t) : Inv t := by
  obtain ⟨ops, e⟩ := ht
  obtain ⟨t', e', i⟩ := apply_ops_inv ops avl_create inv_create
  rw [e] at e'
  cases e'
  exact i

theorem reachable_tree_dup : Reachable tree_dup := ⟨ops_dup, by decide⟩

theorem reachable_tree_seven : Reachable tree_seven := ⟨ops_seven, by decide⟩

theorem cacheOK_of_heightOK (t : avl_node) (ht : HeightOK t) : CacheOK t := by
  induction t with
  | NULL => trivial
  | node v l r h ihl ihr =>
    obtain ⟨hl, hr, hh⟩ := ht
    exact ⟨ihl hl, ihr hr, by rw [get_height_eq hl, get_height_eq hr]; exact hh⟩

theorem mem_of_insert_ops (vs : List Int) (t : avl) (ht : Inv t) :
    ∃ t', apply_ops (vs.map avl_op.insert) t = some t' ∧ Inv t' ∧
      ∀ v, v ∈ inorder t'.root ↔ v ∈ vs ∨ v ∈ inorder t.root := by
  induction vs generalizing t with
  | nil => exact ⟨t, rfl, ht, fun v => by simp⟩
  | cons a vs ih =>
    obtain ⟨t1, e1, i1, l1, l2, d1, d2⟩ := insert_inv a t ht
    obtain ⟨t2, e2, i2, m2⟩ := ih t1 i1
    refine ⟨t2, ?_, i2, ?_⟩
    · simp only [List.map_cons, apply_ops, apply_op, e1, Option.bind_eq_bind, Option.some_bind, e2]
    · intro v
      rw [m2 v, d2, d1]
      simp only [List.mem_append, List.mem_cons]
      tauto

theorem free_loop_spec (n : Nat) (t : avl) (ht : Inv t) (hn : size t.root = n)
    (fuel : Nat) (hf : n ≤ fuel) : avl_free fuel t = some (n, avl_create) := by
  induction n generalizing t fuel with
  | zero =>
    obtain ⟨root⟩ := t
    cases root with
    | NULL => cases fuel <;> simp [avl_free, avl_isempty, is_null, avl_create]
    | node v l r h => simp [size] at hn
  | succ n ih =>
    obtain ⟨root⟩ := t
    cases root with
    | NULL => simp [size] at hn
    | node v l r h =>
      obtain ⟨t1, e1, i1, d1⟩ := remove_inv v ⟨node v l r h⟩ ht
      have hv : v ∈ inorder (node v l r h) := by simp [inorder]
      have hs : size t1.root = n := by
        rw [size_eq_length, d1, List.length_erase_of_mem hv, ← size_eq_length]
        simp only at hn
        omega
      cases fuel with
      | zero => omega
      | succ f =>
        have e2 := ih t1 i1 hs f (by omega)
        simp [avl_free, avl_isempty, is_null, e1, e2]

/-! ## The claims -/

/-- C1: every tree obtained from `avl_create` by a finite sequence of
`avl_insert` and `avl_remove` calls exists (no call fails) and satisfies
`|height(right) - height(left)| ≤ 1` at every node, on true heights. -/
theorem avl_balance_invariant (ops : List avl_op) :
    ∃ t, apply_ops ops avl_create = some t ∧ Balanced t.root := by
  obtain ⟨t, e, i⟩ := apply_ops_inv ops avl_create inv_create
  exact ⟨t, e, i.2.1⟩

/-- C2: in every tree obtained from `avl_create` by a finite sequence of
`avl_insert` and `avl_remove` calls, every node's cached height is one more
than the larger child height (absent child = -1), whether the child heights
are read from the cache or recomputed, and the root's cached height is the
true height of the tree. -/
theorem height_cache_invariant (ops : List avl_op) :
    ∃ t, apply_ops ops avl_create = some t ∧ HeightOK t.root ∧ CacheOK t.root ∧
      _avl_get_height t.root = height t.root := by
  obtain ⟨t, e, i⟩ := apply_ops_inv ops avl_create inv_create
  exact ⟨t, e, i.1, cacheOK_of_heightOK _ i.1, get_height_eq i.1⟩

/-- C3, as stated, fails: after inserting 1 three times the root holds 1 and
so does its left child, so the left subtree is not strictly smaller. -/
theorem bst_strict_fails :
    apply_ops ops_dup avl_create = some tree_dup ∧ ¬ BSTStrict tree_dup.root := by
  decide

/-- C3, amended: in every tree obtained from `avl_create` by a finite sequence
of `avl_insert` and `avl_remove` calls, at every node the left subtree's values
are less than or equal to the node's value and the right subtree's values are
greater than or equal to it; when no value is stored twice the left subtree's
values are strictly less. -/
theorem bst_weak_invariant (ops : List avl_op) :
    ∃ t, apply_ops ops avl_create = some t ∧ BSTWeak t.root ∧
      ((inorder t.root).Nodup → BSTStrict t.root) := by
  obtain ⟨t, e, i⟩ := apply_ops_inv ops avl_create inv_create
  have hw := (bstWeak_iff_sorted t.root).mpr i.2.2
  exact ⟨t, e, hw, bstStrict_of_nodup t.root hw⟩

theorem bst_weak_invariant_witness :
    (inorder tree_seven.root).Nodup ∧ BSTStrict tree_seven.root := by
  obtain ⟨t, e, _, hs⟩ := bst_weak_invariant ops_seven
  have e2 : apply_ops ops_seven avl_create = some tree_seven := by decide
  rw [e2] at e
  cases e
  exact ⟨by decide, hs (by decide)⟩

/-- C4: on a reachable tree `avl_contains` returns 1 for every stored value
and 0 for every value that no node stores. -/
theorem contains_correct (t : avl) (ht : Reachable t) (v : Int) :
    (v ∈ inorder t.root → avl_contains v t = 1) ∧
      (v ∉ inorder t.root → avl_contains v t = 0) := by
  have hc := contains_from_spec v t.root (reachable_inv ht).2.2
  constructor
  · intro hv; simp only [avl_contains, hc, if_pos hv]
  · intro hv; simp only [avl_contains, hc, if_neg hv]

theorem contains_correct_witness :
    Reachable tree_dup ∧ avl_contains 1 tree_dup = 1 ∧ avl_contains 2 tree_dup = 0 :=
  ⟨reachable_tree_dup, (contains_correct tree_dup reachable_tree_dup 1).1 (by decide),
    (contains_correct tree_dup reachable_tree_dup 2).2 (by decide)⟩

/-- C5: after inserting any finite sequence of values into a fresh tree every
value of the sequence is contained; and on a reachable tree, `avl_insert v`
succeeds, `v` is contained afterwards, and every value contained before is
still contained. -/
theorem membership_after_insert :
    (∀ vs : List Int, ∃ t, apply_ops (vs.map avl_op.insert) avl_create = some t ∧
      ∀ v ∈ vs, avl_contains v t = 1) ∧
    (∀ t : avl, Reachable t → ∀ v : Int, ∃ t', avl_insert v t = some t' ∧
      avl_contains v t' = 1 ∧ ∀ w : Int, avl_contains w t = 1 → avl_contains w t' = 1) := by
  constructor
  · intro vs
    obtain ⟨t, e, i, m⟩ := mem_of_insert_ops vs avl_create inv_create
    refine ⟨t, e, fun v hv => ?_⟩
    simp only [avl_contains, contains_from_spec v t.root i.2.2, if_pos ((m v).mpr (Or.inl hv))]
  · intro t ht v
    have i := reachable_inv ht
    obtain ⟨t', e, i', l1, l2, d1, d2⟩ := insert_inv v t i
    refine ⟨t', e, ?_, ?_⟩
    · have hv : v ∈ inorder t'.root := by rw [d2]; simp
      simp only [avl_contains, contains_from_spec v t'.root i'.2.2, if_pos hv]
    · intro w hw
      simp only [avl_contains, contains_from_spec w t.root i.2.2] at hw
      have hm : w ∈ inorder t.root := by
        by_contra hn
        rw [if_neg hn] at hw
        exact absurd hw (by decide)
      have hm' : w ∈ inorder t'.root := by
        rw [d1] at hm
        rw [d2]
        simp only [List.mem_append, List.mem_cons] at hm ⊢
        tauto
      simp only [avl_contains, contains_from_spec w t'.root i'.2.2, if_pos hm']

theorem membership_after_insert_witness :
    Reachable tree_seven ∧ ∃ t', avl_insert 5 tree_seven = some t' ∧
      avl_contains 5 t' = 1 ∧ avl_contains 9 t' = 1 := by
  obtain ⟨t', e, h1, h2⟩ := membership_after_insert.2 tree_seven reachable_tree_seven 5
  exact ⟨reachable_tree_seven, t', e, h1, h2 9 (by decide)⟩

/-- C6: on a reachable tree `avl_insert v` succeeds whether or not `v` is
already stored, adds exactly one node, makes the multiset of stored values the
old one plus one `v`, and makes the in-order sequence the old one with one `v`
inserted. -/
theorem insert_adds_one (t : avl) (ht : Reachable t) (v : Int) :
    ∃ t', avl_insert v t = some t' ∧ size t'.root = size t.root + 1 ∧
      (↑(inorder t'.root) : Multiset Int) = v ::ₘ (↑(inorder t.root) : Multiset Int) ∧
      ∃ l1 l2, inorder t.root = l1 ++ l2 ∧ inorder t'.root = l1 ++ v :: l2 := by
  obtain ⟨t', e, _, l1, l2, d1, d2⟩ := insert_inv v t (reachable_inv ht)
  refine ⟨t', e, ?_, ?_, l1, l2, d1, d2⟩
  · rw [size_eq_length, size_eq_length, d1, d2]
    simp only [List.length_append, List.length_cons]
    omega
  · rw [Multiset.cons_coe, d1, d2]
    exact Multiset.coe_eq_coe.mpr List.perm_middle

theorem insert_adds_one_witness :
    Reachable tree_dup ∧ ∃ t', avl_insert 1 tree_dup = some t' ∧
      size t'.root = size tree_dup.root + 1 := by
  obtain ⟨t', e, hs, _⟩ := insert_adds_one tree_dup reachable_tree_dup 1
  exact ⟨reachable_tree_dup, t', e, hs⟩

/-- C7: on a reachable tree that stores `v`, `avl_remove v` succeeds, removes
exactly one node, and makes the multiset of stored values the old one minus
one `v`: the count of `v` drops by one and every other count is unchanged. -/
theorem remove_removes_one (t : avl) (ht : Reachable t) (v : Int)
    (hv : v ∈ inorder t.root) :
    ∃ t', avl_remove v t = some t' ∧ size t'.root + 1 = size t.root ∧
      (↑(inorder t'.root) : Multiset Int) = (↑(inorder t.root) : Multiset Int).erase v ∧
      (inorder t'.root).count v + 1 = (inorder t.root).count v ∧
      ∀ w : Int, w ≠ v → (inorder t'.root).count w = (inorder t.root).count w := by
  obtain ⟨t', e, _, d⟩ := remove_inv v t (reachable_inv ht)
  refine ⟨t', e, ?_, ?_, ?_, ?_⟩
  · have hpos : 0 < (inorder t.root).length := List.length_pos_of_mem hv
    rw [size_eq_length, size_eq_length, d, List.length_erase_of_mem hv]
    omega
  · rw [d, Multiset.coe_erase]
  · have hpos : 0 < (inorder t.root).count v := List.count_pos_iff.mpr hv
    rw [d, List.count_erase_self]
    omega
  · intro w hw
    rw [d, List.count_erase_of_ne hw]

theorem remove_removes_one_witness :
    Reachable tree_seven ∧ 5 ∈ inorder tree_seven.root ∧
      ∃ t', avl_remove 5 tree_seven = some t' ∧ size t'.root + 1 = size tree_seven.root := by
  obtain ⟨t', e, hs, _⟩ := remove_removes_one tree_seven reachable_tree_seven 5 (by decide)
  exact ⟨reachable_tree_seven, by decide, t', e, hs⟩

/-- C8: on a reachable tree, after `avl_remove v` (which succeeds)
`avl_contains v` returns 0 when `v` was stored at most once and 1 when `v` was
stored at least twice. -/
theorem membership_after_remove (t : avl) (ht : Reachable t) (v : Int) :
    ∃ t', avl_remove v t = some t' ∧
      ((inorder t.root).count v ≤ 1 → avl_contains v t' = 0) ∧
      (2 ≤ (inorder t.root).count v → avl_contains v t' = 1) := by
  obtain ⟨t', e, i', d⟩ := remove_inv v t (reachable_inv ht)
  have hc := contains_from_spec v t'.root i'.2.2
  have hcount : (inorder t'.root).count v = (inorder t.root).count v - 1 := by
    rw [d, List.count_erase_self]
  refine ⟨t', e, ?_, ?_⟩
  · intro h1
    have hn : v ∉ inorder t'.root := by
      rw [← List.count_eq_zero]; omega
    simp only [avl_contains, hc, if_neg hn]
  · intro h2
    have hm : v ∈ inorder t'.root := by
      rw [← List.count_pos_iff]; omega
    simp only [avl_contains, hc, if_pos hm]

theorem membership_after_remove_witness :
    Reachable tree_dup ∧ 2 ≤ (inorder tree_dup.root).count 1 ∧
      ∃ t', avl_remove 1 tree_dup = some t' ∧ avl_contains 1 t' = 1 := by
  obtain ⟨t', e, _, h2⟩ := membership_after_remove tree_dup reachable_tree_dup 1
  exact ⟨reachable_tree_dup, by decide, t', e, h2 (by decide)⟩

/-- C9: on a reachable tree, `avl_remove v` of a value that no node stores
returns the very same tree: same shape, same values, same cached heights. -/
theorem remove_absent_noop (t : avl) (ht : Reachable t) (v : Int)
    (hv : v ∉ inorder t.root) : avl_remove v t = some t := by
  have i := reachable_inv ht
  simp only [avl_remove, remove_absent v t.root i.1 i.2.1 hv, Option.bind_eq_bind,
    Option.some_bind]

theorem remove_absent_noop_witness :
    Reachable tree_seven ∧ 6 ∉ inorder tree_seven.root ∧
      avl_remove 6 tree_seven = some tree_seven :=
  ⟨reachable_tree_seven, by decide,
    remove_absent_noop tree_seven reachable_tree_seven 6 (by decide)⟩

/-- C10: on a reachable tree with `n` nodes, removing the root's value removes
exactly one node, and the loop of `avl_free`, given room for at least `n`
iterations, stops after exactly `n` iterations with an empty tree. -/
theorem free_empties (t : avl) (ht : Reachable t) (fuel : Nat)
    (hf : size t.root ≤ fuel) :
    (∀ v l r h, t.root = node v l r h →
      ∃ t1, avl_remove v t = some t1 ∧ size t1.root + 1 = size t.root) ∧
    ∃ t', avl_free fuel t = some (size t.root, t') ∧ avl_isempty t' = 1 := by
  have i := reachable_inv ht
  constructor
  · intro v l r h hroot
    obtain ⟨t1, e1, _, d1⟩ := remove_inv v t i
    have hv : v ∈ inorder t.root := by rw [hroot]; simp [inorder]
    have hpos : 0 < (inorder t.root).length := List.length_pos_of_mem hv
    refine ⟨t1, e1, ?_⟩
    rw [size_eq_length, size_eq_length, d1, List.length_erase_of_mem hv]
    omega
  · exact ⟨avl_create, free_loop_spec (size t.root) t i rfl fuel hf, rfl⟩

theorem free_empties_witness :
    Reachable tree_seven ∧ size tree_seven.root ≤ 7 ∧
      ∃ t', avl_free 7 tree_seven = some (7, t') ∧ avl_isempty t' = 1 :=
  ⟨reachable_tree_seven, by decide,
    (free_empties tree_seven reachable_tree_seven 7 (by decide)).2⟩

/-! ## Results are never the null pointer -/

theorem update_height_not_null {n t : avl_node} (h : _avl_update_height n = some t) :
    is_null t = false := by
  cases n with
  | NULL => simp [_avl_update_height] at h
  | node v l r c =>
    simp only [_avl_update_height] at h
    split_ifs at h <;> cases h <;> rfl

theorem rotate_left_not_null {n t : avl_node} (h : _avl_rotate_left n = some t) :
    is_null t = false := by
  unfold _avl_rotate_left at h
  split at h
  · obtain ⟨n1, _, e2⟩ := Option.bind_eq_some.mp h
    exact update_height_not_null e2
  · cases h

theorem rotate_right_not_null {n t : avl_node} (h : _avl_rotate_right n = some t) :
    is_null t = false := by
  unfold _avl_rotate_right at h
  split at h
  · obtain ⟨n1, _, e2⟩ := Option.bind_eq_some.mp h
    exact update_height_not_null e2
  · cases h

theorem balance_not_null {n t : avl_node} (h : _avl_balance n = some t) :
    is_null t = false := by
  cases n with
  | NULL => simp [_avl_balance] at h
  | node v l r c =>
    simp only [_avl_balance, _avl_balance_factor, Option.bind_eq_bind, Option.some_bind] at h
    split_ifs at h with h1 h2
    · obtain ⟨lbf, _, e2⟩ := Option.bind_eq_some.mp h
      split_ifs at e2
      · obtain ⟨l1, _, e3⟩ := Option.bind_eq_some.mp e2
        exact rotate_right_not_null e3
      · exact rotate_right_not_null e2
    · obtain ⟨rbf, _, e2⟩ := Option.bind_eq_some.mp h
      split_ifs at e2
      · obtain ⟨r1, _, e3⟩ := Option.bind_eq_some.mp e2
        exact rotate_left_not_null e3
      · exact rotate_left_not_null e2
    · exact update_height_not_null h

theorem subtree_insert_not_null (x : Int) {n t : avl_node}
    (h : _avl_subtree_insert x n = some t) : is_null t = false := by
  cases n with
  | NULL =>
    simp only [_avl_subtree_insert, _avl_node_create, Option.some.injEq] at h
    subst h
    rfl
  | node v l r c =>
    simp only [_avl_subtree_insert] at h
    split_ifs at h
    · obtain ⟨l1, _, e2⟩ := Option.bind_eq_some.mp h
      exact balance_not_null e2
    · obtain ⟨r1, _, e2⟩ := Option.bind_eq_some.mp h
      exact balance_not_null e2

theorem size_zero_iff_null (n : avl_node) : size n = 0 ↔ is_null n = true := by
  cases n with
  | NULL => simp [size, is_null]
  | node v l r c => simp [size, is_null]

theorem reachable_tree_sixteen : Reachable tree_sixteen := ⟨ops_sixteen, by decide⟩

/-- C11: the tree of `avl_create` is empty, contains no value and is left
unchanged (hence empty) by `avl_remove`; `avl_isempty` returns 1 exactly on the
trees without a node and 0 on all others, in particular on the result of any
`avl_insert`, which on a reachable tree always exists. -/
theorem empty_tree_behaviour :
    avl_isempty avl_create = 1 ∧
    (∀ v : Int, avl_contains v avl_create = 0) ∧
    (∀ v : Int, avl_remove v avl_create = some avl_create) ∧
    (∀ t : avl, (avl_isempty t = 1 ↔ size t.root = 0) ∧
      (avl_isempty t = 0 ↔ size t.root ≠ 0)) ∧
    (∀ (t : avl) (v : Int) (t' : avl), avl_insert v t = some t' → avl_isempty t' = 0) ∧
    (∀ t : avl, Reachable t → ∀ v : Int, ∃ t', avl_insert v t = some t' ∧
      avl_isempty t' = 0) := by
  have hins : ∀ (t : avl) (v : Int) (t' : avl), avl_insert v t = some t' →
      avl_isempty t' = 0 := by
    intro t v t' h
    obtain ⟨r, e1, e2⟩ := Option.bind_eq_some.mp h
    cases e2
    simp only [avl_isempty, subtree_insert_not_null v e1, Bool.false_eq_true, if_false]
  refine ⟨rfl, fun v => rfl, fun v => rfl, ?_, hins, ?_⟩
  · intro t
    obtain ⟨root⟩ := t
    cases root <;> simp [avl_isempty, is_null, size]
  · intro t ht v
    obtain ⟨t', e, _⟩ := insert_inv v t (reachable_inv ht)
    exact ⟨t', e, hins t v t' e⟩

theorem empty_tree_behaviour_witness :
    avl_insert 3 avl_create = some ⟨node 3 NULL NULL 0⟩ ∧
      avl_isempty ⟨node 3 NULL NULL 0⟩ = 0 :=
  ⟨rfl, empty_tree_behaviour.2.2.2.2.1 avl_create 3 ⟨node 3 NULL NULL 0⟩ rfl⟩

/-- C12: inserting 0, 1, ..., 15 in ascending order into a fresh tree gives a
tree that contains every `k` with `0 ≤ k ≤ 15`, contains no other integer, and
whose root height is at most `ceil(log2(17)) + 1 = 6`. -/
theorem round_trip_sixteen :
    apply_ops ops_sixteen avl_create = some tree_sixteen ∧
    (∀ k : Int, 0 ≤ k → k ≤ 15 → avl_contains k tree_sixteen = 1) ∧
    (∀ k : Int, k < 0 ∨ 15 < k → avl_contains k tree_sixteen = 0) ∧
    _avl_get_height tree_sixteen.root ≤ (Nat.clog 2 17 : Int) + 1 ∧
    (Nat.clog 2 17 : Int) + 1 = 6 := by
  have hs : List.Sorted (· ≤ ·) (inorder tree_sixteen.root) :=
    (bstWeak_iff_sorted _).mp (by decide)
  have hi : inorder tree_sixteen.root =
      [0, 1, 2, 3, 4, 5, 6, 7, 8, 9, 10, 11, 12, 13, 14, 15] := by decide
  have hc : Nat.clog 2 17 = 5 := by simp [Nat.clog]
  refine ⟨by decide, ?_, ?_, ?_, ?_⟩
  · intro k h0 h15
    have hm : k ∈ inorder tree_sixteen.root := by
      rw [hi]; simp only [List.mem_cons, List.mem_singleton]; omega
    simp only [avl_contains, contains_from_spec k _ hs, if_pos hm]
  · intro k hk
    have hm : k ∉ inorder tree_sixteen.root := by
      intro hmem
      rw [hi] at hmem
      simp only [List.mem_cons, List.not_mem_nil, or_false] at hmem
      omega
    simp only [avl_contains, contains_from_spec k _ hs, if_neg hm]
  · rw [hc]; decide
  · rw [hc]; decide

theorem round_trip_sixteen_witness :
    avl_contains 7 tree_sixteen = 1 ∧ avl_contains 16 tree_sixteen = 0 ∧
      avl_contains (-1) tree_sixteen = 0 :=
  ⟨round_trip_sixteen.2.1 7 (by decide) (by decide),
    round_trip_sixteen.2.2.1 16 (Or.inr (by decide)),
    round_trip_sixteen.2.2.1 (-1) (Or.inl (by decide))⟩

/-- C13: after inserting 5, 3, 8, 1, 4, 7, 9 the root holds 5 and has two
children; `avl_remove(5)` then puts 7, the minimum of the right subtree, at the
root, and the resulting tree is balanced at every node, does not contain 5 and
still contains the other six values. -/
theorem deletion_scenario :
    apply_ops ops_seven avl_create = some tree_seven ∧
    tree_seven.root =
      node 5 (node 3 (node 1 NULL NULL 0) (node 4 NULL NULL 0) 1)
        (node 8 (node 7 NULL NULL 0) (node 9 NULL NULL 0) 1) 2 ∧
    _avl_subtree_min_val (node 8 (node 7 NULL NULL 0) (node 9 NULL NULL 0) 1) = some 7 ∧
    avl_remove 5 tree_seven = some tree_seven_removed ∧
    tree_seven_removed.root =
      node 7 (node 3 (node 1 NULL NULL 0) (node 4 NULL NULL 0) 1)
        (node 8 NULL (node 9 NULL NULL 0) 1) 2 ∧
    Balanced tree_seven_removed.root ∧
    avl_contains 5 tree_seven_removed = 0 ∧
    ∀ v ∈ [3, 8, 1, 4, 7, 9], avl_contains v tree_seven_removed = 1 := by
  refine ⟨by decide, rfl, by decide, by decide, rfl, by decide, by decide, by decide⟩

/-! ## Height against size -/

theorem min_nodes_succ (h : Nat) : min_nodes h ≤ min_nodes (h + 1) := by
  cases h with
  | zero => decide
  | succ k => simp only [min_nodes]; omega

theorem two_pow_le_min_nodes_sq : ∀ h : Nat, 2 ^ h ≤ min_nodes h ^ 2
  | 0 => by decide
  | 1 => by decide
  | h + 2 => by
    have ih := two_pow_le_min_nodes_sq h
    have hm := min_nodes_succ h
    have h2 : 2 * min_nodes h ≤ min_nodes (h + 2) := by
      simp only [min_nodes]; omega
    calc 2 ^ (h + 2) = 4 * 2 ^ h := by ring
      _ ≤ 4 * min_nodes h ^ 2 := by omega
      _ = (2 * min_nodes h) ^ 2 := by ring
      _ ≤ min_nodes (h + 2) ^ 2 := Nat.pow_le_pow_left h2 2

theorem min_nodes_le_size (t : avl_node) (bt : Balanced t) (h : Nat)
    (hh : (h : Int) ≤ height t) : min_nodes h ≤ size t := by
  induction t generalizing h with
  | NULL => simp only [height] at hh; omega
  | node v l r c ihl ihr =>
    obtain ⟨bl, br, bd⟩ := bt
    simp only [height] at hh
    simp only [size]
    match h with
    | 0 => simp only [min_nodes]; omega
    | 1 =>
      simp only [min_nodes]
      by_cases hl : (0 : Int) ≤ height l
      · have := ihl bl 0 (by simpa using hl)
        simp only [min_nodes] at this
        omega
      · have := ihr br 0 (by push_cast; omega)
        simp only [min_nodes] at this
        omega
    | k + 2 =>
      simp only [min_nodes]
      push_cast at hh
      have hm := min_nodes_succ k
      by_cases hl : ((k : Int) + 1) ≤ height l
      · have h1 := ihl bl (k + 1) (by push_cast; omega)
        have h2 := ihr br k (by omega)
        omega
      · have h1 := ihr br (k + 1) (by push_cast; omega)
        have h2 := ihl bl k (by omega)
        omega

theorem contains_iters_le (v : Int) (t : avl_node) :
    (contains_iters v t : Int) ≤ height t + 1 := by
  induction t with
  | NULL => simp [contains_iters, height]
  | node nv l r c ihl ihr =>
    simp only [contains_iters, height]
    have := height_ge l
    have := height_ge r
    split_ifs <;> push_cast <;> omega

theorem insert_depth_le (v : Int) (t : avl_node) :
    (insert_depth v t : Int) ≤ height t + 1 := by
  induction t with
  | NULL => simp [insert_depth, height]
  | node nv l r c ihl ihr =>
    simp only [insert_depth, height]
    split_ifs <;> push_cast <;> omega

theorem remove_depth_le (v : Int) (t : avl_node) :
    (remove_depth v t : Int) ≤ height t + 1 := by
  induction t generalizing v with
  | NULL => simp [remove_depth, height]
  | node nv l r c ihl ihr =>
    simp only [remove_depth, height]
    have := height_ge l
    have := height_ge r
    split_ifs
    · have := ihl v; push_cast; omega
    · have := ihr v; push_cast; omega
    · cases hm : _avl_subtree_min_val r with
      | none => simp only; push_cast; omega
      | some m => have := ihr m; simp only; push_cast; omega
    · push_cast; omega

/-- C14: a non-empty reachable tree with `n` nodes and root height `h`
(cached, equal to the true height) satisfies `2^h ≤ n^2`, that is
`h ≤ log2(n^2)`; the loop of `avl_contains` runs at most `h + 1` times and the
recursion of insert and remove is at most `h + 1` deep. -/
theorem height_logarithmic (t : avl) (ht : Reachable t) (hne : avl_isempty t = 0) :
    ∃ h : Nat, _avl_get_height t.root = (h : Int) ∧ height t.root = (h : Int) ∧
      2 ^ h ≤ size t.root ^ 2 ∧ h ≤ Nat.log 2 (size t.root ^ 2) ∧
      ∀ v : Int, contains_iters v t.root ≤ h + 1 ∧ insert_depth v t.root ≤ h + 1 ∧
        remove_depth v t.root ≤ h + 1 := by
  have i := reachable_inv ht
  have hnn : is_null t.root = false := by
    cases hn : is_null t.root with
    | false => rfl
    | true => simp [avl_isempty, hn] at hne
  have h0 := height_nonneg_of_not_null hnn
  obtain ⟨h, hh⟩ := Int.eq_ofNat_of_zero_le h0
  have hpow : 2 ^ h ≤ size t.root ^ 2 :=
    le_trans (two_pow_le_min_nodes_sq h)
      (Nat.pow_le_pow_left (min_nodes_le_size t.root i.2.1 h (by omega)) 2)
  refine ⟨h, by rw [get_height_eq i.1, hh], hh, hpow, ?_, ?_⟩
  · exact Nat.le_log_of_pow_le (by decide) hpow
  · intro v
    have h1 := contains_iters_le v t.root
    have h2 := insert_depth_le v t.root
    have h3 := remove_depth_le v t.root
    omega

theorem height_logarithmic_witness :
    Reachable tree_sixteen ∧ avl_isempty tree_sixteen = 0 ∧
      ∃ h : Nat, _avl_get_height tree_sixteen.root = (h : Int) ∧
        2 ^ h ≤ size tree_sixteen.root ^ 2 := by
  obtain ⟨h, e1, _, e2, _⟩ :=
    height_logarithmic tree_sixteen reachable_tree_sixteen (by decide)
  exact ⟨reachable_tree_sixteen, by decide, h, e1, e2⟩

/-- C15: on a node whose two child subtrees have correct cached heights and
are balanced at every node, and whose child heights differ by at most 2 (the
node's own cached height is arbitrary), `_avl_balance` returns a subtree with
correct cached heights, balanced at every node, with the same in-order
sequence, of height `H` or `H - 1` for `H = 1 + max(height left, height right)`. -/
theorem balance_restores (v h : Int) (l r : avl_node)
    (hl : HeightOK l) (hr : HeightOK r) (bl : Balanced l) (br : Balanced r)
    (hd : (height r - height l).natAbs ≤ 2) :
    ∃ t, _avl_balance (node v l r h) = some t ∧ HeightOK t ∧ Balanced t ∧
      inorder t = inorder (node v l r h) ∧
      (height t = 1 + max (height l) (height r) ∨
        height t = 1 + max (height l) (height r) - 1) := by
  obtain ⟨t, e, res⟩ := balance_spec v h hl hr bl br hd
  refine ⟨t, e, res.heightOK, res.balanced, res.inorder_eq, ?_⟩
  have h1 := res.height_le
  have h2 := res.height_ge
  omega

theorem balance_restores_witness :
    ∃ t, _avl_balance (node 3 (node 2 (node 1 NULL NULL 0) NULL 1) NULL 99) = some t ∧
      HeightOK t ∧ Balanced t ∧ inorder t = [1, 2, 3] := by
  obtain ⟨t, e, h1, h2, h3, _⟩ :=
    balance_restores 3 99 (node 2 (node 1 NULL NULL 0) NULL 1) NULL
      (by decide) (by decide) (by decide) (by decide) (by decide)
  exact ⟨t, e, h1, h2, h3⟩

theorem update_height_node (v h : Int) (l r : avl_node) :
    _avl_update_height (node v l r h) =
      some (node v l r (if _avl_get_height l > _avl_get_height r
        then _avl_get_height l + 1 else _avl_get_height r + 1)) := by
  simp only [_avl_update_height]
  split_ifs <;> rfl

/-- C16: `_avl_rotate_left` on a node `n` with right child `c` returns `c` as
the root, with `n` as its left child and `c`'s former left subtree as `n`'s
right subtree; the in-order sequence is unchanged; and when the cached heights
of `n.left`, `c.left` and `c.right` are correct, the new cached heights of `n`
and `c` are correct (so the result has correct caches everywhere when the three
subtrees have).  The mirror statement holds for `_avl_rotate_right`. -/
theorem rotations_spec :
    (∀ (v h cv ch : Int) (l cl cr : avl_node), ∃ h1 h2 : Int,
      _avl_rotate_left (node v l (node cv cl cr ch) h) =
        some (node cv (node v l cl h1) cr h2) ∧
      inorder (node cv (node v l cl h1) cr h2) = inorder (node v l (node cv cl cr ch) h) ∧
      (_avl_get_height l = height l → _avl_get_height cl = height cl →
        _avl_get_height cr = height cr →
        h1 = height (node v l cl h1) ∧ h2 = height (node cv (node v l cl h1) cr h2)) ∧
      (HeightOK l → HeightOK cl → HeightOK cr →
        HeightOK (node cv (node v l cl h1) cr h2))) ∧
    (∀ (v h cv ch : Int) (cl cr r : avl_node), ∃ h1 h2 : Int,
      _avl_rotate_right (node v (node cv cl cr ch) r h) =
        some (node cv cl (node v cr r h1) h2) ∧
      inorder (node cv cl (node v cr r h1) h2) = inorder (node v (node cv cl cr ch) r h) ∧
      (_avl_get_height cl = height cl → _avl_get_height cr = height cr →
        _avl_get_height r = height r →
        h1 = height (node v cr r h1) ∧ h2 = height (node cv cl (node v cr r h1) h2)) ∧
      (HeightOK cl → HeightOK cr → HeightOK r →
        HeightOK (node cv cl (node v cr r h1) h2))) := by
  constructor
  · intro v h cv ch l cl cr
    refine ⟨if _avl_get_height l > _avl_get_height cl
        then _avl_get_height l + 1 else _avl_get_height cl + 1,
      if (if _avl_get_height l > _avl_get_height cl
          then _avl_get_height l + 1 else _avl_get_height cl + 1) > _avl_get_height cr
        then (if _avl_get_height l > _avl_get_height cl
          then _avl_get_height l + 1 else _avl_get_height cl + 1) + 1
        else _avl_get_height cr + 1, ?_, ?_, ?_, ?_⟩
    · simp only [_avl_rotate_left, update_height_node, Option.bind_eq_bind, Option.some_bind,
        get_height_node]
    · simp only [inorder, List.append_assoc, List.cons_append]
    · intro e1 e2 e3
      simp only [e1, e2, e3, height]
      constructor <;> split_ifs <;> omega
    · intro h1 h2 h3
      have e1 := get_height_eq h1
      have e2 := get_height_eq h2
      have e3 := get_height_eq h3
      refine ⟨⟨h1, h2, ?_⟩, h3, ?_⟩ <;> simp only [e1, e2, e3, height] <;> split_ifs <;> omega
  · intro v h cv ch cl cr r
    refine ⟨if _avl_get_height cr > _avl_get_height r
        then _avl_get_height cr + 1 else _avl_get_height r + 1,
      if _avl_get_height cl > (if _avl_get_height cr > _avl_get_height r
          then _avl_get_height cr + 1 else _avl_get_height r + 1)
        then _avl_get_height cl + 1
        else (if _avl_get_height cr > _avl_get_height r
          then _avl_get_height cr + 1 else _avl_get_height r + 1) + 1, ?_, ?_, ?_, ?_⟩
    · simp only [_avl_rotate_right, update_height_node, Option.bind_eq_bind, Option.some_bind,
        get_height_node]
    · simp only [inorder, List.append_assoc, List.cons_append]
    · intro e1 e2 e3
      simp only [e1, e2, e3, height]
      constructor <;> split_ifs <;> omega
    · intro h1 h2 h3
      have e1 := get_height_eq h1
      have e2 := get_height_eq h2
      have e3 := get_height_eq h3
      refine ⟨h1, ⟨h2, h3, ?_⟩, ?_⟩ <;> simp only [e1, e2, e3, height] <;> split_ifs <;> omega

theorem rotations_spec_witness :
    ∃ t, _avl_rotate_left (node 1 NULL (node 2 NULL (node 3 NULL NULL 0) 1) 7) = some t ∧
      HeightOK t := by
  obtain ⟨h1, h2, e, _, _, hok⟩ :=
    rotations_spec.1 1 7 2 1 NULL NULL (node 3 NULL NULL 0)
  exact ⟨_, e, hok (by decide) (by decide) (by decide)⟩

/-! ## Rebalancing never dereferences an absent node -/

theorem balance_total (v h : Int) {l r : avl_node} (hl : HeightOK l) (hr : HeightOK r) :
    ∃ t, _avl_balance (node v l r h) = some t := by
  by_cases hlt : height r - height l < -1
  · cases l with
    | NULL => simp only [height] at hlt; have := height_ge r; omega
    | node lv ll lr lh =>
      obtain ⟨hll, hlr, hlh⟩ := hl
      simp only [height] at hlt
      by_cases hdbl : height lr - height ll > 0
      · cases lr with
        | NULL => simp only [height] at hdbl; have := height_ge ll; omega
        | node mv ml mr mh =>
          obtain ⟨hml, hmr, hmh⟩ := hlr
          simp only [height] at hlt hdbl
          apply Exists.intro
          simp only [_avl_balance, _avl_balance_factor, get_height_node,
            get_height_eq hr, get_height_eq hll, Option.bind_eq_bind, Option.some_bind]
          rw [if_pos (by simp only [hlh, height]; omega),
            if_pos (by simp only [hmh]; omega)]
          rw [rotate_left_eq lv lh mv mh hll hml hmr]
          simp only [Option.some_bind]
          exact rotate_right_eq v h mv _ (show HeightOK (node lv ll ml _) from ⟨hll, hml, rfl⟩)
            hmr hr
      · apply Exists.intro
        simp only [_avl_balance, _avl_balance_factor, get_height_node,
          get_height_eq hr, get_height_eq hll, get_height_eq hlr, Option.bind_eq_bind,
          Option.some_bind]
        rw [if_pos (by simp only [hlh]; omega), if_neg (by omega)]
        exact rotate_right_eq v h lv lh hll hlr hr
  · by_cases hgt : height r - height l > 1
    · cases r with
      | NULL => simp only [height] at hgt; have := height_ge l; omega
      | node rv rl rr rh =>
        obtain ⟨hrl, hrr, hrh⟩ := hr
        simp only [height] at hlt hgt
        by_cases hdbl : height rr - height rl < 0
        · cases rl with
          | NULL => simp only [height] at hdbl; have := height_ge rr; omega
          | node mv ml mr mh =>
            obtain ⟨hml, hmr, hmh⟩ := hrl
            simp only [height] at hlt hgt hdbl
            apply Exists.intro
            simp only [_avl_balance, _avl_balance_factor, get_height_node,
              get_height_eq hl, get_height_eq hrr, Option.bind_eq_bind, Option.some_bind]
            rw [if_neg (by simp only [hrh, height]; omega),
              if_pos (by simp only [hrh, height]; omega),
              if_pos (by simp only [hmh]; omega)]
            rw [rotate_right_eq rv rh mv mh hml hmr hrr]
            simp only [Option.some_bind]
            exact rotate_left_eq v h mv _ hl hml
              (show HeightOK (node rv mr rr _) from ⟨hmr, hrr, rfl⟩)
        · apply Exists.intro
          simp only [_avl_balance, _avl_balance_factor, get_height_node,
            get_height_eq hl, get_height_eq hrl, get_height_eq hrr, Option.bind_eq_bind,
            Option.some_bind]
          rw [if_neg (by simp only [hrh]; omega), if_pos (by simp only [hrh]; omega),
            if_neg (by omega)]
          exact rotate_left_eq v h rv rh hl hrl hrr
    · apply Exists.intro
      have h1 : ¬ (height r - height l < -1) := hlt
      have h2 : ¬ (height r - height l > 1) := hgt
      simp only [_avl_balance, _avl_balance_factor, get_height_eq hl, get_height_eq hr,
        Option.bind_eq_bind, Option.some_bind, if_neg h1, if_neg h2]
      exact update_height_eq v h hl hr

theorem not_null_of_height_nonneg {t : avl_node} (h : 0 ≤ height t) : is_null t = false := by
  cases t with
  | NULL => simp [height] at h
  | node _ _ _ _ => rfl

/-- C18: on a node whose child subtrees have correct cached heights,
`_avl_balance` only rotates around present nodes: when the balance factor is
below -1 the left child is present, and so is the left child's right child when
the double rotation is taken; symmetrically on the right; hence `_avl_balance`
returns a result.  `_avl_subtree_min_val` returns a result on every present
subtree, which is where `_avl_subtree_remove` calls it.  So `avl_insert` and
`avl_remove` return a result on every reachable tree. -/
theorem rotation_preconditions :
    (∀ (v h : Int) (l r : avl_node), HeightOK l → HeightOK r →
      (_avl_get_height r - _avl_get_height l < -1 → is_null l = false ∧
        ∀ lv ll lr lh, l = node lv ll lr lh →
          _avl_get_height lr - _avl_get_height ll > 0 → is_null lr = false) ∧
      (_avl_get_height r - _avl_get_height l > 1 → is_null r = false ∧
        ∀ rv rl rr rh, r = node rv rl rr rh →
          _avl_get_height rr - _avl_get_height rl < 0 → is_null rl = false) ∧
      ∃ t, _avl_balance (node v l r h) = some t) ∧
    (∀ r : avl_node, is_null r = false → ∃ m, _avl_subtree_min_val r = some m) ∧
    (∀ t : avl, Reachable t → ∀ v : Int,
      (∃ t', avl_insert v t = some t') ∧ (∃ t', avl_remove v t = some t')) := by
  refine ⟨?_, ?_, ?_⟩
  · intro v h l r hl hr
    refine ⟨?_, ?_, balance_total v h hl hr⟩
    · intro hbf
      rw [get_height_eq hl, get_height_eq hr] at hbf
      have := height_ge r
      refine ⟨not_null_of_height_nonneg (by omega), ?_⟩
      intro lv ll lr lh e hd
      subst e
      rw [get_height_eq hl.1, get_height_eq hl.2.1] at hd
      have := height_ge ll
      exact not_null_of_height_nonneg (by omega)
    · intro hbf
      rw [get_height_eq hl, get_height_eq hr] at hbf
      have := height_ge l
      refine ⟨not_null_of_height_nonneg (by omega), ?_⟩
      intro rv rl rr rh e hd
      subst e
      rw [get_height_eq hr.1, get_height_eq hr.2.1] at hd
      have := height_ge rr
      exact not_null_of_height_nonneg (by omega)
  · intro r hr
    obtain ⟨m, _, e, _⟩ := min_val_head r hr
    exact ⟨m, e⟩
  · intro t ht v
    have i := reachable_inv ht
    obtain ⟨t1, e1, _⟩ := insert_inv v t i
    obtain ⟨t2, e2, _⟩ := remove_inv v t i
    exact ⟨⟨t1, e1⟩, ⟨t2, e2⟩⟩

theorem rotation_preconditions_witness :
    (∃ t, _avl_balance (node 3 (node 1 NULL (node 2 NULL NULL 0) 1) NULL 0) = some t) ∧
      (∃ m, _avl_subtree_min_val tree_seven.root = some m) ∧
      (∃ t', avl_remove 5 tree_seven = some t') :=
  ⟨(rotation_preconditions.1 3 0 (node 1 NULL (node 2 NULL NULL 0) 1) NULL
      (by decide) (by decide)).2.2,
    rotation_preconditions.2.1 tree_seven.root (by decide),
    (rotation_preconditions.2.2 tree_seven reachable_tree_seven 5).2⟩

/-! ## Height change of the mutators -/

theorem remove_shape (x : Int) (t : avl_node) (ht : HeightOK t) (bt : Balanced t) :
    ∃ t', _avl_subtree_remove x t = some t' ∧ RemoveShape t t' := by
  induction t generalizing x with
  | NULL =>
    exact ⟨NULL, rfl, ⟨trivial, trivial, le_refl _, by simp [height]⟩⟩
  | node nv l r h ihl ihr =>
    obtain ⟨hl, hr, hh⟩ := ht
    obtain ⟨bl, br, bd⟩ := bt
    by_cases hlt : x < nv
    · obtain ⟨l', el, rl⟩ := ihl x hl bl
      have hgl := rl.height_ge
      have hll := rl.height_le
      obtain ⟨t', et, rt⟩ := balance_spec nv h rl.heightOK hr rl.balanced br (by omega)
      refine ⟨t', ?_, ?_⟩
      · simp only [_avl_subtree_remove, if_pos hlt, el, Option.bind_eq_bind, Option.some_bind, et]
      · have h1 := rt.height_le
        have h2 := rt.height_ge
        have h3 := rt.height_noop
        refine ⟨rt.heightOK, rt.balanced, ?_, ?_⟩
        · simp only [height]; omega
        · simp only [height]
          by_cases hc : (height r - height l').natAbs ≤ 1
          · have := h3 hc; omega
          · omega
    · by_cases hgt : x > nv
      · obtain ⟨r', er, rr⟩ := ihr x hr br
        have hgr := rr.height_ge
        have hlr := rr.height_le
        obtain ⟨t', et, rt⟩ := balance_spec nv h hl rr.heightOK bl rr.balanced (by omega)
        refine ⟨t', ?_, ?_⟩
        · simp only [_avl_subtree_remove, if_neg hlt, if_pos hgt, er, Option.bind_eq_bind,
            Option.some_bind, et]
        · have h1 := rt.height_le
          have h2 := rt.height_ge
          have h3 := rt.height_noop
          refine ⟨rt.heightOK, rt.balanced, ?_, ?_⟩
          · simp only [height]; omega
          · simp only [height]
            by_cases hc : (height r' - height l).natAbs ≤ 1
            · have := h3 hc; omega
            · omega
      · have hxe : x = nv := by omega
        subst hxe
        by_cases hnl : is_null l = true
        · have el : l = NULL := inorder_of_null hnl
          subst el
          by_cases hnr : is_null r = true
          · have er : r = NULL := inorder_of_null hnr
            subst er
            refine ⟨NULL, ?_, ⟨trivial, trivial, ?_, ?_⟩⟩
            · simp [_avl_subtree_remove, is_null_NULL]
            · simp [height]
            · simp [height]
          · have hnr2 : is_null r = false := by simpa using hnr
            have hr0 := height_nonneg_of_not_null hnr2
            refine ⟨r, ?_, ⟨hr, br, ?_, ?_⟩⟩
            · simp [_avl_subtree_remove, is_null_NULL, hnr2]
            · simp only [height] at bd ⊢; omega
            · simp only [height] at bd ⊢; omega
        · have hnl2 : is_null l = false := by simpa using hnl
          have hl0 := height_nonneg_of_not_null hnl2
          by_cases hnr : is_null r = true
          · have er : r = NULL := inorder_of_null hnr
            subst er
            refine ⟨l, ?_, ⟨hl, bl, ?_, ?_⟩⟩
            · simp [_avl_subtree_remove, is_null_NULL, hnl2]
            · simp only [height] at bd ⊢; omega
            · simp only [height] at bd ⊢; omega
          · have hnr2 : is_null r = false := by simpa using hnr
            obtain ⟨m, rest, em, erest⟩ := min_val_head r hnr2
            obtain ⟨r', er, rr⟩ := ihr m hr br
            have hgr := rr.height_ge
            have hlr := rr.height_le
            obtain ⟨t', et, rt⟩ := balance_spec m h hl rr.heightOK bl rr.balanced (by omega)
            refine ⟨t', ?_, ?_⟩
            · simp [_avl_subtree_remove, hnl2, hnr2, em, er, et]
            · have h1 := rt.height_le
              have h2 := rt.height_ge
              have h3 := rt.height_noop
              refine ⟨rt.heightOK, rt.balanced, ?_, ?_⟩
              · simp only [height]; omega
              · simp only [height]
                by_cases hc : (height r' - height l).natAbs ≤ 1
                · have := h3 hc; omega
                · omega

/-- C19: on a subtree with correct cached heights and balanced at every node,
whatever the order of its values, `_avl_subtree_insert` returns a subtree of
the same height or one more, and `_avl_subtree_remove` returns a subtree of the
same height or one less; both results again have correct cached heights and
are balanced, so their heights differ from the sibling's by at most 2. -/
theorem mutation_height_step (s : avl_node) (hs : HeightOK s) (bs : Balanced s) (v : Int) :
    (∃ s', _avl_subtree_insert v s = some s' ∧ HeightOK s' ∧ Balanced s' ∧
      (height s' = height s ∨ height s' = height s + 1)) ∧
    (∃ s', _avl_subtree_remove v s = some s' ∧ HeightOK s' ∧ Balanced s' ∧
      (height s' = height s ∨ height s' = height s - 1)) := by
  constructor
  · obtain ⟨s', e, res⟩ := insert_spec v s hs bs
    have h1 := res.height_ge
    have h2 := res.height_le
    exact ⟨s', e, res.heightOK, res.balanced, by omega⟩
  · obtain ⟨s', e, res⟩ := remove_shape v s hs bs
    have h1 := res.height_ge
    have h2 := res.height_le
    exact ⟨s', e, res.heightOK, res.balanced, by omega⟩

theorem mutation_height_step_witness :
    (∃ s', _avl_subtree_insert 4 (node 2 (node 9 NULL NULL 0) NULL 1) = some s' ∧
      (height s' = 1 ∨ height s' = 1 + 1)) ∧
    (∃ s', _avl_subtree_remove 2 (node 2 (node 9 NULL NULL 0) NULL 1) = some s' ∧
      (height s' = 1 ∨ height s' = 1 - 1)) := by
  obtain ⟨⟨s1, e1, _, _, h1⟩, ⟨s2, e2, _, _, h2⟩⟩ :=
    mutation_height_step (node 2 (node 9 NULL NULL 0) NULL 1) (by decide) (by decide) 4
  refine ⟨⟨s1, e1, h1⟩, ?_⟩
  obtain ⟨⟨_, _, _, _, _⟩, ⟨s3, e3, _, _, h3⟩⟩ :=
    mutation_height_step (node 2 (node 9 NULL NULL 0) NULL 1) (by decide) (by decide) 2
  exact ⟨s3, e3, h3⟩

/-! ## Order of the in-order sequence, minimum -/

/-- C17: in every tree obtained from `avl_create` by a finite sequence of
`avl_insert` and `avl_remove` calls the in-order sequence of the stored values
is non-decreasing, and it still is after one more `avl_insert` or `avl_remove`;
on every subtree, a non-decreasing in-order sequence is the same as: at every
node the left subtree's values are `≤` the node's value and the right subtree's
values are `≥` it. -/
theorem inorder_sorted_invariant :
    (∀ n : avl_node, List.Sorted (· ≤ ·) (inorder n) ↔ BSTWeak n) ∧
    (∀ ops : List avl_op, ∃ t, apply_ops ops avl_create = some t ∧
      List.Sorted (· ≤ ·) (inorder t.root) ∧
      ∀ v : Int,
        (∃ t', avl_insert v t = some t' ∧ List.Sorted (· ≤ ·) (inorder t'.root)) ∧
        (∃ t', avl_remove v t = some t' ∧ List.Sorted (· ≤ ·) (inorder t'.root))) := by
  refine ⟨fun n => (bstWeak_iff_sorted n).symm, ?_⟩
  intro ops
  obtain ⟨t, e, i⟩ := apply_ops_inv ops avl_create inv_create
  refine ⟨t, e, i.2.2, fun v => ?_⟩
  obtain ⟨t1, e1, i1, _⟩ := insert_inv v t i
  obtain ⟨t2, e2, i2, _⟩ := remove_inv v t i
  exact ⟨⟨t1, e1, i1.2.2⟩, ⟨t2, e2, i2.2.2⟩⟩

theorem leftmost_eq_min_val (t : avl_node) : leftmost t = _avl_subtree_min_val t := by
  induction t with
  | NULL => rfl
  | node v l r h ihl _ =>
    cases l with
    | NULL => simp [leftmost, _avl_subtree_min_val, is_null]
    | node lv ll lr lh =>
      simp only [leftmost, _avl_subtree_min_val, is_null, Bool.false_eq_true, if_false]
      simpa only [_avl_subtree_min_val, is_null] using ihl

/-- C20: on a non-empty subtree whose in-order sequence is non-decreasing,
`_avl_subtree_min_val` returns the value of the leftmost node, which is the
first element of the in-order sequence and is `≤` every stored value. -/
theorem min_val_is_minimum (t : avl_node) (hne : is_null t = false)
    (hs : List.Sorted (· ≤ ·) (inorder t)) :
    ∃ m, _avl_subtree_min_val t = some m ∧ leftmost t = some m ∧
      (inorder t).head? = some m ∧ ∀ x ∈ inorder t, m ≤ x := by
  obtain ⟨m, rest, e1, e2⟩ := min_val_head t hne
  refine ⟨m, e1, by rw [leftmost_eq_min_val, e1], by rw [e2]; rfl, ?_⟩
  intro x hx
  rw [e2] at hx hs
  rcases List.mem_cons.mp hx with hx | hx
  · omega
  · exact List.rel_of_sorted_cons hs x hx

theorem min_val_is_minimum_witness :
    is_null tree_seven.root = false ∧ List.Sorted (· ≤ ·) (inorder tree_seven.root) ∧
      ∃ m, _avl_subtree_min_val tree_seven.root = some m ∧ ∀ x ∈ inorder tree_seven.root, m ≤ x := by
  have hs : List.Sorted (· ≤ ·) (inorder tree_seven.root) :=
    (bstWeak_iff_sorted _).mp (by decide)
  obtain ⟨m, e, _, _, hm⟩ := min_val_is_minimum tree_seven.root (by decide) hs
  exact ⟨by decide, hs, m, e, hm⟩

end Avl
